import Mathlib

/-
Verification of the dataset-generation script (scripts/gen_programs.py) of the
PCCoder repository against its natural-language specification.

The script itself is embedded shallowly below.  The DSL modules it imports
(dsl.program, dsl.impl, dsl.example, env.statement, dsl.constraint) are not
part of the source snapshot; they are external collaborators per the spec, so
their data model is modelled from the spec (section 3) and the oracles
(example generation, equivalence decision, parsing) are abstract parameters.

The file is organised as definitions first, then lemmas and the claim
theorems.
-/

set_option maxHeartbeats 1000000

namespace GenPrograms

/-- Modelled from the spec: the two first-order value types of the DSL
(section 3: each input slot is LIST-of-int or scalar-int), plus an abstract
family of higher-order types used by library lambda functions (the
instruction catalog dsl.impl is external to the snapshot). -/
inductive Ty where
  | INT : Ty
  | LIST : Ty
  | FUNC : Nat → Ty
deriving DecidableEq

/-- Modelled from the spec: a library lambda function, identified by a tag
and carrying the higher-order type under which it is indexed. -/
structure Lam where
  tag : Nat
  ty : Ty
deriving DecidableEq

/-- Modelled from the spec: one catalog function, with its ordered typed
argument-slot signature and its output type (section 6, instruction
catalog).  A single non-tuple input type in the Python code corresponds to a
one-element list here. -/
structure Func where
  tag : Nat
  inputTypes : List Ty
  outputType : Ty
deriving DecidableEq

/-- Modelled from the spec: an argument source of a Statement is a variable
index or an embedded library lambda (section 3). -/
inductive Arg where
  | var : Nat → Arg
  | lam : Lam → Arg
deriving DecidableEq

/-- Modelled from the spec: a Statement is a function reference plus an
ordered tuple of argument sources (section 3). -/
structure Statement where
  function : Func
  args : List Arg
deriving DecidableEq

/-- Modelled from the spec: a Program is an ordered input-type signature
plus an ordered sequence of Statements; structural equality is over both
fields (section 3). -/
structure Program where
  input_types : List Ty
  statements : List Statement
deriving DecidableEq

/-- Modelled from the spec: variable types of a program are the input types
followed by the output type of each statement (section 3: each statement
result is appended as a new named variable). -/
def Program.var_types (p : Program) : List Ty :=
  p.input_types ++ p.statements.map (fun s => s.function.outputType)

/-- Modelled from the spec: get_used_indices of dsl.program (absent from the
snapshot) collects every variable index referenced as an argument by any
statement of the program. -/
def get_used_indices (p : Program) : List Nat :=
  p.statements.flatMap (fun s => s.args.filterMap (fun a =>
    match a with
    | Arg.var i => some i
    | Arg.lam _ => none))

/-- Embeds get_free_indices (gen_programs.py, lines 22 to 28): all indices in
range of the target variable count that are not used. -/
def get_free_indices (p : Program) (program_len : Nat) : List Nat :=
  (List.range (program_len + p.input_types.length)).filter
    (fun i => !(get_used_indices p).contains i)

/-- Modelled from the spec: get_unused_indices of dsl.program (absent from
the snapshot).  Per section 3 a free or unused index is a variable index,
input slot or intermediate statement result, not referenced as an argument
by any later statement; the final statement result is not intermediate and
is therefore exempt. -/
def get_unused_indices (p : Program) : List Nat :=
  (List.range (p.input_types.length + p.statements.length - 1)).filter
    (fun i => !(get_used_indices p).contains i)

/-- Embeds KNOWN_TRAIN_SIZES (gen_programs.py, line 19) as a partial map
from program length to the known exact count. -/
def KNOWN_TRAIN_SIZES : Nat → Option Nat :=
  fun n => if n = 1 then some 47 else if n = 2 then some 2883 else none

/-- Embeds the per-length quota computation of main (gen_programs.py, lines
288 to 291): num_programs is num_train plus num_test, capped by
KNOWN_TRAIN_SIZES when the length has a known size. -/
def quotaFor (num_train num_test program_len : Nat) : Nat :=
  let num_programs := num_train + num_test
  match KNOWN_TRAIN_SIZES program_len with
  | some k => min num_programs k
  | none => num_programs

/-- Embeds get_input_type_combinations (gen_programs.py, lines 31 to 41):
for each count of inputs from 1 to num_inputs and each count of list-typed
slots from 1 to that count, the signature with that many LIST slots followed
by INT slots. -/
def get_input_type_combinations (num_inputs : Nat) : List (List Ty) :=
  (List.range' 1 num_inputs).flatMap (fun n =>
    (List.range' 1 n).map (fun num_list =>
      List.replicate num_list Ty.LIST ++ List.replicate (n - num_list) Ty.INT))

/-- Embeds the membership test arg in free_indxs (gen_programs.py, line
108): a lambda argument is never a member of the integer index set. -/
def argFree (free : List Nat) : Arg → Bool
  | Arg.var i => free.contains i
  | Arg.lam _ => false

/-- Embeds itertools.product (gen_programs.py, line 56) over a list of
candidate lists, in the same order: the last slot varies fastest. -/
def cartProd {α : Type} : List (List α) → List (List α)
  | [] => [[]]
  | l :: ls => l.flatMap (fun x => (cartProd ls).map (fun xs => x :: xs))

/-- Embeds iterate_inputs (gen_programs.py, lines 44 to 57): the cartesian
product of the candidate lists of the function's input types.  A non-tuple
input type of the Python code is a one-element inputTypes list here. -/
def iterate_inputs (function : Func) (type_to_vars : Ty → List Arg) :
    List (List Arg) :=
  cartProd (function.inputTypes.map type_to_vars)

/-- Embeds the construction of type_to_vars (gen_programs.py, lines 90 to
92): for each variable in order, insert its index at the front of the list
of its type; the defaultdict is a total function that is empty elsewhere. -/
def buildT2V (var_types : List Ty) : Ty → List Arg :=
  var_types.enum.foldl
    (fun m q => fun u => if u = q.2 then Arg.var q.1 :: m q.2 else m u)
    (fun _ => [])

/-- Embeds one Python for-iteration pass of the reorder loop
(gen_programs.py, lines 97 to 100).  The list iterator advances by position
while a free element is removed from its current position and re-inserted
at the front; the list keeps its length, the iterator visits every original
position exactly once, and positions after the current one are unchanged,
which this positional recursion reproduces. -/
def passAux (fr : Arg → Bool) : Nat → List Arg → Nat → List Arg
  | 0, l, _ => l
  | fuel + 1, l, idx =>
    if h : idx < l.length then
      passAux fr fuel
        (if fr (l.get ⟨idx, h⟩) then
          l.get ⟨idx, h⟩ :: l.erase (l.get ⟨idx, h⟩)
        else l)
        (idx + 1)
    else l

/-- One full pass of the reorder loop over a candidate list. -/
def onePass (fr : Arg → Bool) (l : List Arg) : List Arg :=
  passAux fr l.length l 0

/-- Embeds the reorder loop (gen_programs.py, lines 96 to 100): one pass
per occurrence of a type in var_types, each over the current list of that
type. -/
def reorder (fr : Arg → Bool) (var_types : List Ty) (m : Ty → List Arg) :
    Ty → List Arg :=
  var_types.foldl
    (fun m t => fun u => if u = t then onePass fr (m t) else m u) m

/-- Embeds the lambda-appending loop (gen_programs.py, lines 102 to 103):
each library lambda is appended to the list of its type. -/
def addLambdas (lambdas : List Lam) (m : Ty → List Arg) : Ty → List Arg :=
  lambdas.foldl
    (fun m f => fun u => if u = f.ty then m f.ty ++ [Arg.lam f] else m u) m

/-- The complete type-to-candidates index as computed at one recursion step
of the helper (gen_programs.py, lines 90 to 103). -/
def fullT2V (lambdas : List Lam) (program : Program) (program_len : Nat) :
    Ty → List Arg :=
  addLambdas lambdas
    (reorder (argFree (get_free_indices program program_len))
      program.var_types (buildT2V program.var_types))

/-- The ambient per-worker constants broadcast by init_gen_prog_worker
(gen_programs.py, lines 60 to 62), together with the lambda library of
dsl.impl (external, abstract) and the randomness oracle ord: random.shuffle
at each helper entry mutates the shared functions list in place, also
across recursive calls, so the order in which functions are tried at one
node is modelled by an oracle giving the reordering for each draw. -/
structure GenParams where
  program_len : Nat
  num_programs : Nat
  lambdas : List Lam
  ord : Nat → List Func → List Func

/-- The state threaded through one worker: the shared progress counter, the
result set res (a list without duplicate members by construction), and the
cursor into the randomness oracle. -/
structure GenState where
  counter : Nat
  programs : List Program
  rnd : Nat
deriving DecidableEq

/-- Embeds the argument loop of the helper (gen_programs.py, lines 107 to
117): skip an argument tuple holding no free variable, skip a statement
already present in the program, otherwise recurse on the program extended
with the new statement; a true result returns immediately, a falsy result
continues the loop with the state left by the recursive call. -/
def tryArgs (recurse : Program → GenState → Bool × GenState)
    (free : List Nat) (program : Program) (function : Func) :
    List (List Arg) → GenState → Bool × GenState
  | [], st => (false, st)
  | args :: rest, st =>
    if (args.filter (argFree free)).length = 0 then
      tryArgs recurse free program function rest st
    else
      if program.statements.contains (Statement.mk function args) then
        tryArgs recurse free program function rest st
      else
        match recurse (Program.mk program.input_types
            (program.statements ++ [Statement.mk function args])) st with
        | (true, st') => (true, st')
        | (false, st') => tryArgs recurse free program function rest st'

/-- Embeds the function loop of the helper (gen_programs.py, lines 106 to
117). -/
def tryFuncs (recurse : Program → GenState → Bool × GenState)
    (t2v : Ty → List Arg) (free : List Nat) (program : Program) :
    List Func → GenState → Bool × GenState
  | [], st => (false, st)
  | f :: fs, st =>
    match tryArgs recurse free program f (iterate_inputs f t2v) st with
    | (true, st') => (true, st')
    | (false, st') => tryFuncs recurse t2v free program fs st'

/-- Embeds helper (gen_programs.py, lines 76 to 117): shuffle, then return
true if the quota is met; at target depth accept the program exactly when
it has no unused indices and is not already in the result set; otherwise
build the candidate index and run the function loop.  The fuel bounds the
recursion depth; the worker always supplies more fuel than the missing
statement count, so the fuel-exhausted branch is never reached. -/
def helper (P : GenParams) :
    Nat → List Func → Program → GenState → Bool × GenState
  | 0, _, _, st => (false, st)
  | fuel + 1, functions0, program, st0 =>
    let functions := P.ord st0.rnd functions0
    let st := GenState.mk st0.counter st0.programs (st0.rnd + 1)
    if P.num_programs ≤ st.counter then (true, st)
    else if P.program_len ≤ program.statements.length then
      if get_unused_indices program ≠ [] ∨ program ∈ st.programs then
        (false, st)
      else
        (true, GenState.mk (st.counter + 1) (program :: st.programs) st.rnd)
    else
      tryFuncs (fun q s => helper P fuel functions q s)
        (fullT2V P.lambdas program P.program_len)
        (get_free_indices program P.program_len) program functions st

/-- Embeds the restart loop of gen_program_worker (gen_programs.py, lines
119 to 123) with explicit restart fuel: none means the while loop is still
running after that many iterations. -/
def workerLoop (P : GenParams) (functions : List Func)
    (input_types : List Ty) : Nat → GenState → Option GenState
  | 0, _ => none
  | n + 1, st =>
    if P.num_programs ≤ st.counter then some st
    else
      workerLoop P functions input_types n
        (helper P (P.program_len + 1) functions
          (Program.mk input_types []) st).2

/-- Embeds gen_program_worker (gen_programs.py, lines 70 to 123): start
from an empty result set and loop until the shared counter reaches the
quota.  The catalog ALL_FUNCTIONS of dsl.impl is external and passed
abstractly; counter0 and rnd0 are the initial shared-counter value and
randomness cursor. -/
def gen_program_worker (P : GenParams) (functions : List Func)
    (input_types : List Ty) (restarts : Nat) (counter0 rnd0 : Nat) :
    Option GenState :=
  workerLoop P functions input_types restarts (GenState.mk counter0 [] rnd0)

/-- A one-function catalog holding only the sample sort-like function. -/
def sortOnly : List Func := [Func.mk 0 [Ty.LIST] Ty.LIST]

/-- Parameters of a concrete length-one run over one list input with quota
two, no lambdas, and the identity shuffle oracle.  Over the catalog
sortOnly only one distinct program of length one exists, so the quota two
is unattainable. -/
def instParams : GenParams := GenParams.mk 1 2 [] (fun _ l => l)

/-- Parameters of the same run with the attainable quota one. -/
def instParamsOne : GenParams := GenParams.mk 1 1 [] (fun _ l => l)

/-- The default statement, for positional access with getD. -/
def defaultStmt : Statement := Statement.mk (Func.mk 0 [] Ty.INT) []

/-- The property claimed of accepted programs: every variable index below
the final one (input slots and intermediate statement results) is
referenced as an argument by a later Statement: the statement at position k
defines variable numInputs + k, so a reference to variable i from a
position k with i < numInputs + k is a reference by a later statement. -/
def fullyUsed (p : Program) : Prop :=
  ∀ i ∈ List.range (p.input_types.length + p.statements.length - 1),
    ∃ k ∈ List.range p.statements.length,
      Arg.var i ∈ (p.statements.getD k defaultStmt).args ∧
      i < p.input_types.length + k

/-- All variable references of a statement are below the bound n. -/
def stVarsBelow (s : Statement) (n : Nat) : Prop :=
  ∀ i, Arg.var i ∈ s.args → i < n

/-- Every statement references only variables defined before it. -/
def wfProg (p : Program) : Prop :=
  ∀ k, k < p.statements.length →
    stVarsBelow (p.statements.getD k defaultStmt) (p.input_types.length + k)

section Dictionaries

variable {E : Type}

/-- The keys of a Python dict modelled as an association list. -/
def dictKeys (d : List (Program × E)) : List Program :=
  d.map (fun q => q.1)

/-- Lookup in a Python dict modelled as an association list (first match). -/
def dictLookup (d : List (Program × E)) (p : Program) : Option E :=
  (d.find? (fun q => q.1 = p)).map (fun q => q.2)

/-- Deletion of a key from a Python dict modelled on the association list:
removes the entry holding the key. -/
def dictErase (d : List (Program × E)) (p : Program) : List (Program × E) :=
  d.eraseP (fun q => q.1 = p)

/-- Insertion into a Python dict: overwrite the entry in place when the key
is present, append at the end otherwise (dicts preserve insertion order). -/
def dictInsert (d : List (Program × E)) (p : Program) (e : E) :
    List (Program × E) :=
  if d.any (fun q => q.1 = p) then
    d.map (fun q => if q.1 = p then (p, e) else q)
  else
    d ++ [(p, e)]

/-- Embeds dict.update (gen_programs.py, line 307): insert every entry of
the update dict in order. -/
def dictUpdate (d upd : List (Program × E)) : List (Program × E) :=
  upd.foldl (fun acc q => dictInsert acc q.1 q.2) d

/-- Embeds one iteration of the loop of discard_identical_worker
(gen_programs.py, lines 221 to 225): the entry of the current program is
deleted when some existing program is judged equivalent on the examples
stored for the current program. -/
def discardStep (isSame : Program → Program → E → Bool)
    (existing : List Program) (d : List (Program × E)) (p : Program) :
    List (Program × E) :=
  match dictLookup d p with
  | some ex => if existing.any (fun o => isSame p o ex) then dictErase d p else d
  | none => d

/-- Embeds the loop of discard_identical_worker (gen_programs.py, lines
220 to 227): walk the pre-computed key list, applying discardStep for each
program in turn. -/
def discardLoop (isSame : Program → Program → E → Bool)
    (existing : List Program) :
    List Program → List (Program × E) → List (Program × E)
  | [], d => d
  | p :: rest, d => discardLoop isSame existing rest (discardStep isSame existing d p)

/-- Embeds discard_identical_worker (gen_programs.py, lines 214 to 228):
the external equivalence oracle constraint.is_same is an abstract
parameter. -/
def discard_identical_worker (isSame : Program → Program → E → Bool)
    (existing : List Program) (new_examples : List (Program × E)) :
    List (Program × E) :=
  discardLoop isSame existing (dictKeys new_examples) new_examples

/-- Embeds the Python slice new_programs[i::k] (gen_programs.py, line 301):
elements at positions i, i+k, i+2k and so on. -/
def sliceStep {α : Type} (l : List α) (i k : Nat) : List α :=
  ((l.enum).filter (fun q => i ≤ q.1 && (q.1 - i) % k = 0)).map (fun q => q.2)

/-- Embeds one merge step of main (gen_programs.py, lines 296 to 307):
shard the new-program list across num_workers workers, restrict the new
examples to each shard, run discard_identical_worker per shard against the
keys of the accumulated corpus, then update the corpus with each shard
result in turn. -/
def mergeStep (isSame : Program → Program → E → Bool) (num_workers : Nat)
    (examples new_examples : List (Program × E)) : List (Program × E) :=
  let existing_programs := dictKeys examples
  let new_programs := dictKeys new_examples
  let parts := (List.range num_workers).map
    (fun i => sliceStep new_programs i num_workers)
  let example_parts := parts.map (fun progs =>
    progs.filterMap (fun p => (dictLookup new_examples p).map (fun e => (p, e))))
  let res := example_parts.map (discard_identical_worker isSame existing_programs)
  res.foldl dictUpdate examples

/-- Embeds load_cache (gen_programs.py, lines 191 to 206).  The raw line
decoder json.loads and the two record decoders Program.parse and
Example.from_line are external; a Python exception is modelled as none, and
propagation of an exception out of a list comprehension or a loop is the
all-or-nothing behaviour of mapM over Option.  The resulting dict is built
by inserting the parsed entries in order. -/
def load_cache {J : Type} (jsonLoads : String → Option J)
    (parseProgram : J → Option Program) (exampleFromLine : J → Option E)
    (cacheLines : List String) : Option (List (Program × E)) := do
  let lines ← cacheLines.mapM jsonLoads
  let entries ← lines.mapM (fun line => do
    let program ← parseProgram line
    let p_examples ← exampleFromLine line
    pure (program, p_examples))
  pure (entries.foldl (fun d q => dictInsert d q.1 q.2) [])

/-- Embeds the resume length computation of main (gen_programs.py, line
283): the maximum statement count over the keys of the loaded cache.  The
length of a program, per the spec data model, is its statement count. -/
def maxKeyLen (c : List (Program × E)) : Nat :=
  (c.map (fun q => q.1.statements.length)).foldl max 0

/-- Embeds the per-length generation loop of main (gen_programs.py, lines
288 to 307) with the generated batches abstracted: for each target length
from min_len plus one up to max_train_len, merge the batch produced for that
length into the corpus.  Quota selection and the external generation
pipeline do not affect which entries the merge writes, so batches is the
abstract per-length result of gen_programs after example generation. -/
def buildLoop (isSame : Program → Program → E → Bool) (num_workers : Nat)
    (batches : Nat → List (Program × E)) (min_len max_train_len : Nat)
    (examples0 : List (Program × E)) : List (Program × E) :=
  (List.range' (min_len + 1) (max_train_len - min_len)).foldl
    (fun examples program_len =>
      mergeStep isSame num_workers examples (batches program_len)) examples0

end Dictionaries

/-- A sample statement applying a one-list-argument catalog function to the
first input, used to instantiate theorems at concrete inputs. -/
def sampleStmt : Statement :=
  Statement.mk (Func.mk 0 [Ty.LIST] Ty.LIST) [Arg.var 0]

/-- A sample program with one list input and no statements. -/
def sampleP0 : Program := Program.mk [Ty.LIST] []

/-- A sample program with two list inputs and no statements. -/
def sampleP1 : Program := Program.mk [Ty.LIST, Ty.LIST] []

/-- A sample program with one int input and no statements. -/
def sampleP2 : Program := Program.mk [Ty.INT] []

/-- A sample program of length one over one list input. -/
def samplePLen1 : Program := Program.mk [Ty.LIST] [sampleStmt]

section BucketMode

variable {E : Type}

/-- Embeds the inner comparison loop of test sampling (gen_programs.py,
lines 332 to 336): enumerate the candidates after position i; skip an entry
whose enumeration index is already in the discard set; on an equivalence
match add that enumeration index to the discard set.  The enumeration
restarts at zero on the slice, and the code inserts and tests this
slice-relative index, exactly as written. -/
def bucketInner (isSame : Program → Program → E → Bool) (ex : E)
    (program : Program) :
    List (Nat × Program) → List Nat → List Nat
  | [], discard => discard
  | (j, other) :: rest, discard =>
    if j ∈ discard then bucketInner isSame ex program rest discard
    else if isSame program other ex then
      bucketInner isSame ex program rest (j :: discard)
    else bucketInner isSame ex program rest discard

/-- Embeds the outer test-sampling loop (gen_programs.py, lines 320 to
336): walk the enumerated candidates; stop once enough test programs are
accepted; skip discarded indices; otherwise accept the candidate, discard
its index and run the inner comparison loop on the candidates after it. -/
def bucketGo (isSame : Program → Program → E → Bool)
    (examples : Program → E) (num_test : Nat) (candidates : List Program) :
    List (Nat × Program) → List Program → List Nat →
    List Program × List Nat
  | [], test_programs, discard => (test_programs, discard)
  | (i, program) :: rest, test_programs, discard =>
    if num_test ≤ test_programs.length then (test_programs, discard)
    else if i ∈ discard then
      bucketGo isSame examples num_test candidates rest test_programs discard
    else
      bucketGo isSame examples num_test candidates rest
        (test_programs ++ [program])
        (bucketInner isSame (examples program) program
          ((candidates.drop (i + 1)).enum) (i :: discard))

/-- Embeds one whole bucket-mode pass (gen_programs.py, lines 318 to 336)
on an already-shuffled candidate list, returning the accepted test programs
and the final discard set.  The per-program example table is the abstract
map examples. -/
def bucketOuter (isSame : Program → Program → E → Bool)
    (examples : Program → E) (num_test : Nat) (candidates : List Program) :
    List Program × List Nat :=
  bucketGo isSame examples num_test candidates candidates.enum [] []

/-- Embeds the train-pool restoration (gen_programs.py, line 340): the
candidates whose position is not in the discard set are returned to the
training pool. -/
def bucketTrainRest (candidates : List Program) (discard : List Nat) :
    List Program :=
  (candidates.enum.filter (fun q => !discard.contains q.1)).map (fun q => q.2)

end BucketMode

section Theorems

/-- In a dict with pairwise-distinct keys, lookup of the key of a stored
entry returns the stored value. -/
theorem dictLookup_eq_of_mem {E : Type} {d : List (Program × E)} {p : Program}
    {e : E} (hnd : (dictKeys d).Nodup) (hmem : (p, e) ∈ d) :
    dictLookup d p = some e := by
  induction d with
  | nil => simp at hmem
  | cons q rest ih =>
    rw [dictKeys, List.map_cons, List.nodup_cons] at hnd
    rcases List.mem_cons.1 hmem with h | h
    · subst h
      simp [dictLookup, List.find?]
    · have hne : ¬ (q.1 = p) := by
        intro hq
        exact hnd.1 (hq ▸ List.mem_map.2 ⟨(p, e), h, rfl⟩)
      have : dictLookup (q :: rest) p = dictLookup rest p := by
        simp [dictLookup, List.find?, hne]
      rw [this]
      exact ih hnd.2 h

/-- A single discard step only ever deletes an entry. -/
theorem discardStep_sublist {E : Type} (isSame : Program → Program → E → Bool)
    (existing : List Program) (d : List (Program × E)) (p : Program) :
    (discardStep isSame existing d p).Sublist d := by
  rw [discardStep]
  rcases h : dictLookup d p with _ | ex
  · exact List.Sublist.refl d
  · by_cases hs : (existing.any fun o => isSame p o ex) = true
    · simp only [hs, if_true]
      exact List.eraseP_sublist d
    · simp only [hs, if_false]
      exact List.Sublist.refl d

/-- The discard loop only ever deletes entries. -/
theorem discardLoop_sublist {E : Type} (isSame : Program → Program → E → Bool)
    (existing : List Program) (keysL : List Program) :
    ∀ d : List (Program × E),
      (discardLoop isSame existing keysL d).Sublist d := by
  induction keysL with
  | nil => intro d; rw [discardLoop]
  | cons p rest ih =>
    intro d
    rw [discardLoop]
    exact (ih _).trans (discardStep_sublist isSame existing d p)

/-- Claim C10: discard_identical_worker only removes entries.  The result is
a sublist of the input dict, so its key set is a subset of the input key set
and no new program is added; and, when the input keys are pairwise distinct
(as Python dict keys are), every surviving program is mapped to exactly its
original example list. -/
theorem C10_discard_only_removes {E : Type}
    (isSame : Program → Program → E → Bool) (existing : List Program)
    (new_examples : List (Program × E))
    (hnd : (dictKeys new_examples).Nodup) :
    (discard_identical_worker isSame existing new_examples).Sublist
      new_examples ∧
    (∀ p e, (p, e) ∈ discard_identical_worker isSame existing new_examples →
      (p, e) ∈ new_examples) ∧
    (∀ p, p ∈ dictKeys (discard_identical_worker isSame existing new_examples) →
      p ∈ dictKeys new_examples ∧
      dictLookup (discard_identical_worker isSame existing new_examples) p =
        dictLookup new_examples p) := by
  have hsub : (discard_identical_worker isSame existing new_examples).Sublist
      new_examples :=
    discardLoop_sublist isSame existing (dictKeys new_examples) new_examples
  refine ⟨hsub, fun p e hm => hsub.mem hm, fun p hp => ?_⟩
  have hksub : (dictKeys (discard_identical_worker isSame existing
      new_examples)).Sublist (dictKeys new_examples) := hsub.map _
  have hndr : (dictKeys (discard_identical_worker isSame existing
      new_examples)).Nodup := hnd.sublist hksub
  rcases List.mem_map.1 hp with ⟨q, hq, hq1⟩
  have hqe : q = (p, q.2) := by
    cases q
    simp at hq1
    simp [hq1]
  refine ⟨hksub.mem hp, ?_⟩
  rw [dictLookup_eq_of_mem hndr (hqe ▸ hq),
    dictLookup_eq_of_mem hnd (hsub.mem (hqe ▸ hq))]

/-- Witness for C10 on a two-entry dict where the first entry is judged
equivalent to an existing program and the second survives. -/
theorem C10_discard_only_removes_witness :
    ((dictKeys [(Program.mk [Ty.LIST] [], (0 : Nat)),
        (Program.mk [Ty.INT] [], 1)]).Nodup) ∧
    (discard_identical_worker
        (fun a _ _ => a.input_types = [Ty.LIST]) [Program.mk [] []]
        [(Program.mk [Ty.LIST] [], (0 : Nat)), (Program.mk [Ty.INT] [], 1)]).Sublist
      [(Program.mk [Ty.LIST] [], (0 : Nat)), (Program.mk [Ty.INT] [], 1)] := by
  refine ⟨by decide, ?_⟩
  exact (C10_discard_only_removes
    (fun a _ _ => a.input_types = [Ty.LIST]) [Program.mk [] []]
    [(Program.mk [Ty.LIST] [], (0 : Nat)), (Program.mk [Ty.INT] [], 1)]
    (by decide)).1

/-- After erasing a key from a dict with pairwise-distinct keys, the key is
gone. -/
theorem dictErase_not_mem_keys {E : Type} {d : List (Program × E)}
    (hnd : (dictKeys d).Nodup) (p : Program) :
    p ∉ dictKeys (dictErase d p) := by
  induction d with
  | nil => simp [dictErase, dictKeys]
  | cons q rest ih =>
    rw [dictKeys, List.map_cons, List.nodup_cons] at hnd
    by_cases hq : q.1 = p
    · have : dictErase (q :: rest) p = rest := by
        simp [dictErase, List.eraseP_cons, hq]
      rw [this]
      intro hmem
      exact hnd.1 (hq ▸ hmem)
    · have : dictErase (q :: rest) p = q :: dictErase rest p := by
        simp [dictErase, List.eraseP_cons, hq]
      rw [this]
      intro hmem
      rcases List.mem_cons.1 hmem with h | h
      · exact hq h.symm
      · exact ih hnd.2 h

/-- Every entry surviving the discard loop was already in the dict, and if
its key was in the processed key list then no existing program was judged
equivalent to it on its stored examples. -/
theorem discardLoop_mem_spec {E : Type} (isSame : Program → Program → E → Bool)
    (existing : List Program) :
    ∀ (keysL : List Program) (d : List (Program × E)) (p : Program) (e : E),
      (dictKeys d).Nodup →
      (p, e) ∈ discardLoop isSame existing keysL d →
      (p, e) ∈ d ∧
        (p ∈ keysL → existing.any (fun o => isSame p o e) = false) := by
  intro keysL
  induction keysL with
  | nil =>
    intro d p e hnd h
    rw [discardLoop] at h
    exact ⟨h, fun hp => absurd hp (List.not_mem_nil p)⟩
  | cons q rest ih =>
    intro d p e hnd h
    rw [discardLoop] at h
    have hndstep : (dictKeys (discardStep isSame existing d q)).Nodup :=
      hnd.sublist ((discardStep_sublist isSame existing d q).map _)
    rcases ih (discardStep isSame existing d q) p e hndstep h with ⟨hmem, hrest⟩
    have hmemd : (p, e) ∈ d := (discardStep_sublist isSame existing d q).mem hmem
    refine ⟨hmemd, fun hp => ?_⟩
    rcases List.mem_cons.1 hp with hpq | hpr
    · subst hpq
      have hlook : dictLookup d p = some e := dictLookup_eq_of_mem hnd hmemd
      simp only [discardStep, hlook] at hmem
      by_cases hs : (existing.any fun o => isSame p o e) = true
      · rw [if_pos hs] at hmem
        exact absurd (List.mem_map.2 ⟨(p, e), hmem, rfl⟩)
          (dictErase_not_mem_keys hnd p)
      · exact Bool.eq_false_iff.2 hs
    · exact hrest hpr

/-- An entry of a dict after one insertion is an original entry or the
inserted pair. -/
theorem dictInsert_mem {E : Type} {d : List (Program × E)} {q p : Program}
    {v e : E} (h : (p, e) ∈ dictInsert d q v) :
    (p, e) ∈ d ∨ (p = q ∧ e = v) := by
  rw [dictInsert] at h
  by_cases hany : (d.any fun r => r.1 = q) = true
  · rw [if_pos hany] at h
    rcases List.mem_map.1 h with ⟨r, hr, hre⟩
    by_cases hrq : r.1 = q
    · rw [if_pos hrq] at hre
      right
      exact ⟨(Prod.mk.injEq _ _ _ _ ▸ hre.symm).1.symm ▸ rfl,
        (Prod.mk.injEq _ _ _ _ ▸ hre.symm).2.symm ▸ rfl⟩
    · rw [if_neg hrq] at hre
      left
      exact hre ▸ hr
  · rw [if_neg hany] at h
    rcases List.mem_append.1 h with h | h
    · exact Or.inl h
    · right
      have := List.mem_singleton.1 h
      exact ⟨congrArg Prod.fst this, congrArg Prod.snd this⟩

/-- An entry of a dict after an update is an original entry or an entry of
the update dict. -/
theorem dictUpdate_mem {E : Type} {p : Program} {e : E} :
    ∀ (upd d : List (Program × E)), (p, e) ∈ dictUpdate d upd →
      (p, e) ∈ d ∨ (p, e) ∈ upd := by
  intro upd
  induction upd with
  | nil => intro d h; exact Or.inl h
  | cons x rest ih =>
    intro d h
    rw [dictUpdate, List.foldl_cons] at h
    rcases ih (dictInsert d x.1 x.2) h with h' | h'
    · rcases dictInsert_mem h' with h'' | h''
      · exact Or.inl h''
      · right
        rw [List.mem_cons]
        left
        rw [h''.1, h''.2]
    · exact Or.inr (List.mem_cons.2 (Or.inr h'))

/-- An entry obtained by folding updates over a list of dicts comes from
the base dict or from one of the updates. -/
theorem foldl_dictUpdate_mem {E : Type} {p : Program} {e : E} :
    ∀ (parts : List (List (Program × E))) (d : List (Program × E)),
      (p, e) ∈ parts.foldl dictUpdate d →
      (p, e) ∈ d ∨ ∃ u ∈ parts, (p, e) ∈ u := by
  intro parts
  induction parts with
  | nil => intro d h; exact Or.inl h
  | cons u rest ih =>
    intro d h
    rw [List.foldl_cons] at h
    rcases ih (dictUpdate d u) h with h' | ⟨u', hu', hmem⟩
    · rcases dictUpdate_mem u d h' with h'' | h''
      · exact Or.inl h''
      · exact Or.inr ⟨u, List.mem_cons_self u rest, h''⟩
    · exact Or.inr ⟨u', List.mem_cons.2 (Or.inr hu'), hmem⟩

/-- Membership in the dict comprehension restricting a lookup table to a
key list: the value is the looked-up one. -/
theorem filterMapLookup_mem {E : Type} (g : Program → Option E)
    (progs : List Program) (p : Program) (e : E)
    (h : (p, e) ∈ progs.filterMap (fun a => (g a).map (fun v => (a, v)))) :
    g p = some e ∧ p ∈ progs := by
  rcases List.mem_filterMap.1 h with ⟨a, ha, hae⟩
  rcases Option.map_eq_some'.1 hae with ⟨v, hv, hev⟩
  have hap : a = p := congrArg Prod.fst hev
  have hve : v = e := congrArg Prod.snd hev
  exact ⟨hap ▸ hve ▸ hv, hap ▸ ha⟩

/-- The keys of the dict comprehension are the keys of the key list whose
lookup succeeds, in order. -/
theorem dictKeys_filterMapLookup {E : Type} (g : Program → Option E) :
    ∀ progs : List Program,
      dictKeys (progs.filterMap (fun a => (g a).map (fun v => (a, v)))) =
        progs.filter (fun a => (g a).isSome) := by
  intro progs
  induction progs with
  | nil => rfl
  | cons a rest ih =>
    rw [List.filterMap_cons, List.filter_cons]
    cases hga : g a with
    | none => simpa [hga] using ih
    | some v =>
      simp only [hga, Option.map_some', Option.isSome_some, if_pos]
      rw [dictKeys, List.map_cons]
      exact congrArg (List.cons a) ih

/-- A stepped slice of a list is a sublist of it. -/
theorem sliceStep_sublist {α : Type} (l : List α) (i k : Nat) :
    (sliceStep l i k).Sublist l := by
  have h1 : ((l.enum).filter
      (fun q => i ≤ q.1 && (q.1 - i) % k = 0)).Sublist l.enum :=
    List.filter_sublist l.enum
  have h2 := h1.map Prod.snd
  rw [List.enum_map_snd] at h2
  exact h2

/-- Lookup skips an entry with a different key. -/
theorem dictLookup_cons_ne {E : Type} {r : Program × E}
    {d : List (Program × E)} {p : Program} (h : ¬ r.1 = p) :
    dictLookup (r :: d) p = dictLookup d p := by
  rw [dictLookup, dictLookup,
    List.find?_cons_of_neg d (by simpa using h)]

/-- Lookup stops at an entry with the looked-up key. -/
theorem dictLookup_cons_eq {E : Type} {r : Program × E}
    {d : List (Program × E)} {p : Program} (h : r.1 = p) :
    dictLookup (r :: d) p = some r.2 := by
  rw [dictLookup, List.find?_cons_of_pos d (by simpa using h)]
  rfl

/-- Overwriting the entries of a different key does not change a lookup. -/
theorem dictLookup_map_overwrite {E : Type} {q p : Program} (v : E)
    (hqp : q ≠ p) :
    ∀ d : List (Program × E),
      dictLookup (d.map (fun r => if r.1 = q then (q, v) else r)) p =
        dictLookup d p := by
  intro d
  induction d with
  | nil => rfl
  | cons r rest ih =>
    rw [List.map_cons]
    by_cases hrq : r.1 = q
    · rw [if_pos hrq]
      rw [dictLookup_cons_ne (show ¬ ((q, v) : Program × E).1 = p from hqp),
        dictLookup_cons_ne (show ¬ r.1 = p from hrq ▸ hqp)]
      exact ih
    · rw [if_neg hrq]
      by_cases hrp : r.1 = p
      · rw [dictLookup_cons_eq hrp, dictLookup_cons_eq hrp]
      · rw [dictLookup_cons_ne hrp, dictLookup_cons_ne hrp]
        exact ih

/-- Appending an entry with a different key does not change a lookup. -/
theorem dictLookup_append_ne {E : Type} {q p : Program} (v : E)
    (hqp : q ≠ p) :
    ∀ d : List (Program × E),
      dictLookup (d ++ [(q, v)]) p = dictLookup d p := by
  intro d
  induction d with
  | nil =>
    rw [List.nil_append,
      dictLookup_cons_ne (show ¬ ((q, v) : Program × E).1 = p from hqp)]
  | cons r rest ih =>
    rw [List.cons_append]
    by_cases hrp : r.1 = p
    · rw [dictLookup_cons_eq hrp, dictLookup_cons_eq hrp]
    · rw [dictLookup_cons_ne hrp, dictLookup_cons_ne hrp]
      exact ih

/-- Inserting under a different key does not change a lookup. -/
theorem dictInsert_lookup_ne {E : Type} {q p : Program} (v : E)
    (hqp : q ≠ p) :
    ∀ d : List (Program × E),
      dictLookup (dictInsert d q v) p = dictLookup d p := by
  intro d
  rw [dictInsert]
  by_cases hany : (d.any fun r => r.1 = q) = true
  · rw [if_pos hany]
    exact dictLookup_map_overwrite v hqp d
  · rw [if_neg hany]
    exact dictLookup_append_ne v hqp d

/-- Updating with a dict that does not hold a key does not change that
lookup. -/
theorem dictUpdate_lookup_not_mem {E : Type} {p : Program} :
    ∀ (upd d : List (Program × E)), p ∉ dictKeys upd →
      dictLookup (dictUpdate d upd) p = dictLookup d p := by
  intro upd
  induction upd with
  | nil => intro d _; rfl
  | cons x rest ih =>
    intro d hp
    rw [dictKeys, List.map_cons, List.mem_cons] at hp
    push_neg at hp
    rw [dictUpdate, List.foldl_cons]
    have := ih (dictInsert d x.1 x.2) hp.2
    rw [dictUpdate] at this
    rw [this]
    exact dictInsert_lookup_ne x.2 (fun h => hp.1 h.symm) d

/-- A merge step leaves the lookup of any key outside the new batch
unchanged. -/
theorem mergeStep_lookup_not_mem {E : Type}
    (isSame : Program → Program → E → Bool) (num_workers : Nat)
    (examples new_examples : List (Program × E)) (p : Program)
    (hp : p ∉ dictKeys new_examples) :
    dictLookup (mergeStep isSame num_workers examples new_examples) p =
      dictLookup examples p := by
  rw [mergeStep]
  have main : ∀ (res : List (List (Program × E))) (d : List (Program × E)),
      (∀ u ∈ res, p ∉ dictKeys u) →
      dictLookup (res.foldl dictUpdate d) p = dictLookup d p := by
    intro res
    induction res with
    | nil => intro d _; rfl
    | cons u rest ih =>
      intro d hall
      rw [List.foldl_cons]
      rw [ih (dictUpdate d u)
        (fun u' hu' => hall u' (List.mem_cons.2 (Or.inr hu')))]
      exact dictUpdate_lookup_not_mem u d (hall u (List.mem_cons_self u rest))
  apply main
  intro u hu
  rcases List.mem_map.1 hu with ⟨epart, hepart, rfl⟩
  rcases List.mem_map.1 hepart with ⟨progs, hprogs, rfl⟩
  rcases List.mem_map.1 hprogs with ⟨i, _, rfl⟩
  intro hmem
  have h1 : (dictKeys (discard_identical_worker isSame (dictKeys examples)
      ((sliceStep (dictKeys new_examples) i num_workers).filterMap
        (fun q => (dictLookup new_examples q).map (fun e => (q, e)))))).Sublist
      (dictKeys
        ((sliceStep (dictKeys new_examples) i num_workers).filterMap
          (fun q => (dictLookup new_examples q).map (fun e => (q, e))))) :=
    (discardLoop_sublist isSame (dictKeys examples) _ _).map _
  rw [dictKeys_filterMapLookup] at h1
  have h2 : p ∈ sliceStep (dictKeys new_examples) i num_workers :=
    (List.filter_sublist _).mem (h1.mem hmem)
  exact hp ((sliceStep_sublist (dictKeys new_examples) i num_workers).mem h2)

/-- The initial value bounds a fold of max from below. -/
theorem le_foldl_max : ∀ (l : List Nat) (a : Nat), a ≤ l.foldl max a := by
  intro l
  induction l with
  | nil => intro a; exact Nat.le_refl a
  | cons x rest ih =>
    intro a
    rw [List.foldl_cons]
    exact Nat.le_trans (Nat.le_max_left a x) (ih (max a x))

/-- Every member bounds a fold of max from below. -/
theorem mem_le_foldl_max :
    ∀ (l : List Nat) (a x : Nat), x ∈ l → x ≤ l.foldl max a := by
  intro l
  induction l with
  | nil => intro a x hx; exact absurd hx (List.not_mem_nil x)
  | cons y rest ih =>
    intro a x hx
    rw [List.foldl_cons]
    rcases List.mem_cons.1 hx with h | h
    · subst h
      exact Nat.le_trans (Nat.le_max_right a x) (le_foldl_max rest _)
    · exact ih (max a y) x h

/-- Every cached program is no longer than the maximum cached length. -/
theorem maxKeyLen_bound {E : Type} {c : List (Program × E)} {p : Program}
    {e : E} (h : (p, e) ∈ c) : p.statements.length ≤ maxKeyLen c :=
  mem_le_foldl_max _ 0 _ (List.mem_map.2 ⟨(p, e), h, rfl⟩)

/-- Claim C2, amended: after a merge step, every entry of the corpus is
either a pre-batch entry, or a new-batch entry that was checked against
every pre-batch program on its own examples and judged non-equivalent to
all of them.  Within-batch pairs are not checked. -/
theorem C2_merge_checks_only_prior_corpus {E : Type}
    (isSame : Program → Program → E → Bool) (num_workers : Nat)
    (examples new_examples : List (Program × E))
    (hnd : (dictKeys new_examples).Nodup) :
    ∀ p e, (p, e) ∈ mergeStep isSame num_workers examples new_examples →
      (p, e) ∈ examples ∨
      (dictLookup new_examples p = some e ∧
        ∀ o ∈ dictKeys examples, isSame p o e = false) := by
  intro p e hmem
  rw [mergeStep] at hmem
  rcases foldl_dictUpdate_mem _ examples hmem with h | ⟨u, hu, hmemu⟩
  · exact Or.inl h
  · right
    rcases List.mem_map.1 hu with ⟨epart, hepart, rfl⟩
    rcases List.mem_map.1 hepart with ⟨progs, hprogs, rfl⟩
    rcases List.mem_map.1 hprogs with ⟨i, _, rfl⟩
    have hndslice : (sliceStep (dictKeys new_examples) i num_workers).Nodup :=
      hnd.sublist (sliceStep_sublist _ i num_workers)
    have hndep : (dictKeys ((sliceStep (dictKeys new_examples) i
        num_workers).filterMap
        (fun q => (dictLookup new_examples q).map (fun e => (q, e))))).Nodup := by
      rw [dictKeys_filterMapLookup]
      exact hndslice.sublist (List.filter_sublist _)
    rcases discardLoop_mem_spec isSame (dictKeys examples) _ _ p e hndep hmemu
      with ⟨hmemep, hcheck⟩
    rcases filterMapLookup_mem (dictLookup new_examples) _ p e hmemep
      with ⟨hlook, _⟩
    refine ⟨hlook, ?_⟩
    have hkey : p ∈ dictKeys ((sliceStep (dictKeys new_examples) i
        num_workers).filterMap
        (fun q => (dictLookup new_examples q).map (fun e => (q, e)))) :=
      List.mem_map.2 ⟨(p, e), hmemep, rfl⟩
    have hany := hcheck hkey
    intro o ho
    have := List.any_eq_false.1 hany o ho
    exact Bool.eq_false_iff.2 this

/-- Witness for the amended C2: a batch of one program merged into a
one-entry corpus under an always-false oracle; the surviving entry carries
its own examples and was checked against the single prior program. -/
theorem C2_merge_checks_only_prior_corpus_witness :
    (sampleP0, (0 : Nat)) ∈ [(sampleP2, (7 : Nat))] ∨
    (dictLookup [(sampleP0, (0 : Nat))] sampleP0 = some 0 ∧
      ∀ o ∈ dictKeys [(sampleP2, (7 : Nat))],
        (fun (_ _ : Program) (_ : Nat) => false) sampleP0 o 0 = false) :=
  C2_merge_checks_only_prior_corpus (fun _ _ _ => false) 1
    [(sampleP2, (7 : Nat))] [(sampleP0, (0 : Nat))] (by decide)
    sampleP0 0 (by decide)

/-- Claim C2, counterexample: with an empty prior corpus and a batch of two
structurally distinct programs that the equivalence oracle judges
equivalent, the merge keeps both, so the merged corpus holds two programs
judged equivalent on the first program's own examples. -/
theorem C2_within_batch_duplicates_survive :
    sampleP0 ∈ dictKeys (mergeStep (fun _ _ _ => true) 1
      ([] : List (Program × Nat)) [(sampleP0, 0), (sampleP1, 1)]) ∧
    sampleP1 ∈ dictKeys (mergeStep (fun _ _ _ => true) 1
      ([] : List (Program × Nat)) [(sampleP0, 0), (sampleP1, 1)]) ∧
    sampleP0 ≠ sampleP1 ∧
    (fun (_ _ : Program) (_ : Nat) => true) sampleP0 sampleP1 0 = true := by
  refine ⟨by decide, by decide, by decide, rfl⟩

/-- Claim C3, code evaluation at the failing input: with candidates
[sampleP0, sampleP2, sampleP1] and an oracle equating sampleP0 with
sampleP1 only, the code marks the slice-relative index 1 instead of the
absolute index 2, so the later equivalent program sampleP1 is accepted
into the test output next to sampleP0, and the inert program sampleP2 at
index 1 is dropped from the returned training pool. -/
theorem C3_wrong_index_discarded :
    bucketOuter
        (fun a b (_ : Nat) => decide (a = sampleP0) && decide (b = sampleP1))
        (fun _ => (0 : Nat)) 5 [sampleP0, sampleP2, sampleP1] =
      ([sampleP0, sampleP1], [2, 1, 0]) ∧
    (decide (sampleP0 = sampleP0) && decide (sampleP1 = sampleP1)) = true ∧
    bucketTrainRest [sampleP0, sampleP2, sampleP1] [2, 1, 0] = [] :=
  ⟨by decide, by decide, by decide⟩

/-- Claim C6: resuming from a cache whose maximum program length is k, the
builder iterates exactly over the lengths from k plus one to the configured
maximum (cached lengths are never regenerated), and every cached entry is
still looked up unchanged in the corpus produced by the whole loop. -/
theorem C6_resume_preserves_cached_lengths {E : Type}
    (isSame : Program → Program → E → Bool) (num_workers max_train_len : Nat)
    (batches : Nat → List (Program × E)) (examples0 : List (Program × E))
    (hnd : (dictKeys examples0).Nodup)
    (hb : ∀ L, ∀ q ∈ batches L, q.1.statements.length = L) :
    (∀ L, L ∈ List.range' (maxKeyLen examples0 + 1)
        (max_train_len - maxKeyLen examples0) ↔
      (maxKeyLen examples0 < L ∧ L ≤ max_train_len)) ∧
    (∀ p e, (p, e) ∈ examples0 →
      dictLookup (buildLoop isSame num_workers batches (maxKeyLen examples0)
        max_train_len examples0) p = some e) := by
  constructor
  · intro L
    rw [List.mem_range'_1]
    omega
  · intro p e hpe
    have hlen : p.statements.length ≤ maxKeyLen examples0 := maxKeyLen_bound hpe
    rw [buildLoop]
    have main : ∀ (lens : List Nat) (d : List (Program × E)),
        (∀ L ∈ lens, maxKeyLen examples0 < L) →
        dictLookup d p = some e →
        dictLookup (lens.foldl (fun examples program_len =>
          mergeStep isSame num_workers examples (batches program_len)) d) p =
          some e := by
      intro lens
      induction lens with
      | nil => intro d _ h; exact h
      | cons L rest ih =>
        intro d hall hd
        rw [List.foldl_cons]
        apply ih _ (fun L' h' => hall L' (List.mem_cons.2 (Or.inr h')))
        rw [mergeStep_lookup_not_mem]
        · exact hd
        · intro hpk
          rcases List.mem_map.1 hpk with ⟨q, hq, hq1⟩
          have hqlen := hb L q hq
          rw [hq1] at hqlen
          have hL := hall L (List.mem_cons_self L rest)
          omega
    apply main
    · intro L hL
      have := List.mem_range'_1.1 hL
      omega
    · exact dictLookup_eq_of_mem hnd hpe

/-- Witness for C6: a one-entry cache of length one, a maximum length of
two and empty batches; the cached entry survives unchanged and the loop
range is exactly length two. -/
theorem C6_resume_preserves_cached_lengths_witness :
    (2 ∈ List.range' (maxKeyLen [(samplePLen1, (5 : Nat))] + 1)
        (2 - maxKeyLen [(samplePLen1, (5 : Nat))]) ↔
      (maxKeyLen [(samplePLen1, (5 : Nat))] < 2 ∧ 2 ≤ 2)) ∧
    dictLookup (buildLoop (fun _ _ _ => false) 1 (fun _ => [])
      (maxKeyLen [(samplePLen1, (5 : Nat))]) 2 [(samplePLen1, (5 : Nat))])
      samplePLen1 = some 5 := by
  have h := C6_resume_preserves_cached_lengths (fun _ _ _ => false) 1 2
    (fun _ => []) [(samplePLen1, (5 : Nat))] (by decide)
    (by intro L q hq; exact absurd hq (List.not_mem_nil q))
  exact ⟨h.1 2, h.2 samplePLen1 5 (by decide)⟩

/-- Every element of a tuple produced by the cartesian product comes from
one of the candidate lists. -/
theorem cartProd_mem {α : Type} :
    ∀ (ls : List (List α)) (args : List α), args ∈ cartProd ls →
      ∀ a ∈ args, ∃ l ∈ ls, a ∈ l := by
  intro ls
  induction ls with
  | nil =>
    intro args hargs a ha
    rw [cartProd, List.mem_singleton] at hargs
    subst hargs
    exact absurd ha (List.not_mem_nil a)
  | cons l rest ih =>
    intro args hargs a ha
    rw [cartProd, List.mem_flatMap] at hargs
    rcases hargs with ⟨x, hx, hxs⟩
    rcases List.mem_map.1 hxs with ⟨xs, hxs', rfl⟩
    rcases List.mem_cons.1 ha with h | h
    · exact ⟨l, List.mem_cons_self l rest, h ▸ hx⟩
    · rcases ih xs hxs' a h with ⟨l', hl', hal'⟩
      exact ⟨l', List.mem_cons_of_mem l hl', hal'⟩

/-- Every candidate placed by the type-to-variables build step satisfies
any property holding of the initial map entries and of the inserted
indices. -/
theorem t2vFold_mem (Pr : Arg → Prop) :
    ∀ (pairs : List (Nat × Ty)) (m : Ty → List Arg),
      (∀ t a, a ∈ m t → Pr a) → (∀ q ∈ pairs, Pr (Arg.var q.1)) →
      ∀ t a, a ∈ (pairs.foldl
        (fun m q => fun u => if u = q.2 then Arg.var q.1 :: m q.2 else m u)
        m) t → Pr a := by
  intro pairs
  induction pairs with
  | nil => intro m hm _ t a ha; exact hm t a ha
  | cons q rest ih =>
    intro m hm hq t a ha
    rw [List.foldl_cons] at ha
    refine ih _ ?_ (fun q' hq' => hq q' (List.mem_cons_of_mem q hq')) t a ha
    intro t' a' ha'
    by_cases ht : t' = q.2
    · rw [if_pos ht] at ha'
      rcases List.mem_cons.1 ha' with h | h
      · exact h ▸ hq q (List.mem_cons_self q rest)
      · exact hm q.2 a' h
    · rw [if_neg ht] at ha'
      exact hm t' a' ha'

/-- Every candidate of the built type-to-variables map is a variable index
below the variable count. -/
theorem buildT2V_mem (vt : List Ty) (t : Ty) (a : Arg)
    (h : a ∈ buildT2V vt t) : ∃ i, a = Arg.var i ∧ i < vt.length := by
  refine t2vFold_mem (fun a => ∃ i, a = Arg.var i ∧ i < vt.length)
    vt.enum (fun _ => []) ?_ ?_ t a h
  · intro t' a' ha'
    exact absurd ha' (List.not_mem_nil a')
  · intro q hq
    exact ⟨q.1, rfl, List.fst_lt_of_mem_enum hq⟩

/-- A single reorder-loop pass permutes the candidate list. -/
theorem passAux_perm (fr : Arg → Bool) :
    ∀ (fuel : Nat) (l : List Arg) (idx : Nat),
      (passAux fr fuel l idx).Perm l := by
  intro fuel
  induction fuel with
  | zero => intro l idx; rw [passAux]
  | succ fuel ih =>
    intro l idx
    rw [passAux]
    by_cases h : idx < l.length
    · rw [dif_pos h]
      refine (ih _ _).trans ?_
      by_cases hfr : fr (l.get ⟨idx, h⟩) = true
      · rw [if_pos hfr]
        exact (List.perm_cons_erase (l.get_mem idx h)).symm
      · rw [if_neg hfr]
    · rw [dif_neg h]

/-- The whole reorder loop permutes each candidate list. -/
theorem reorder_perm (fr : Arg → Bool) :
    ∀ (vt : List Ty) (m : Ty → List Arg) (t : Ty),
      ((reorder fr vt m) t).Perm (m t) := by
  intro vt
  induction vt with
  | nil => intro m t; rw [reorder]; rfl
  | cons t0 rest ih =>
    intro m t
    rw [reorder, List.foldl_cons]
    have h1 := ih (fun u => if u = t0 then onePass fr (m t0) else m u) t
    rw [reorder] at h1
    refine h1.trans ?_
    by_cases ht : t = t0
    · rw [if_pos ht, ht]
      exact passAux_perm fr _ _ _
    · rw [if_neg ht]

/-- After the reorder loop, each candidate list holds the same elements. -/
theorem reorder_mem {fr : Arg → Bool} {vt : List Ty} {m : Ty → List Arg}
    {t : Ty} {a : Arg} (h : a ∈ reorder fr vt m t) : a ∈ m t :=
  (reorder_perm fr vt m t).mem_iff.1 h

/-- The lambda-appending loop appends only lambda arguments. -/
theorem addLambdas_decomp :
    ∀ (lambdas : List Lam) (m : Ty → List Arg) (t : Ty),
      ∃ L, addLambdas lambdas m t = m t ++ L ∧
        ∀ x ∈ L, ∃ l, x = Arg.lam l := by
  intro lambdas
  induction lambdas with
  | nil =>
    intro m t
    exact ⟨[], (List.append_nil (m t)).symm, fun x hx =>
      absurd hx (List.not_mem_nil x)⟩
  | cons f fs ih =>
    intro m t
    rw [addLambdas, List.foldl_cons]
    rcases ih (fun u => if u = f.ty then m f.ty ++ [Arg.lam f] else m u) t
      with ⟨L', hL', hlam⟩
    rw [addLambdas] at hL'
    by_cases ht : t = f.ty
    · rw [if_pos ht, ht] at hL'
      refine ⟨[Arg.lam f] ++ L', by rw [ht, hL', List.append_assoc], ?_⟩
      intro x hx
      rcases List.mem_append.1 hx with h | h
      · exact ⟨f, List.mem_singleton.1 h⟩
      · exact hlam x h
    · rw [if_neg ht] at hL'
      exact ⟨L', hL', hlam⟩

/-- Every candidate of the full type-to-candidates index is a library
lambda or a variable index below the variable count. -/
theorem fullT2V_mem {lambdas : List Lam} {program : Program}
    {program_len : Nat} {t : Ty} {a : Arg}
    (h : a ∈ fullT2V lambdas program program_len t) :
    (∃ l, a = Arg.lam l) ∨
      (∃ i, a = Arg.var i ∧ i < program.var_types.length) := by
  rw [fullT2V] at h
  rcases addLambdas_decomp lambdas
    (reorder (argFree (get_free_indices program program_len))
      program.var_types (buildT2V program.var_types)) t with ⟨L, hL, hlam⟩
  rw [hL] at h
  rcases List.mem_append.1 h with h' | h'
  · exact Or.inr (buildT2V_mem program.var_types t a (reorder_mem h'))
  · exact Or.inl (hlam a h')

/-- The variable count equals the input count plus the statement count. -/
theorem var_types_length (p : Program) :
    p.var_types.length = p.input_types.length + p.statements.length := by
  rw [Program.var_types, List.length_append, List.length_map]

/-- Every statement assembled from an argument tuple of iterate_inputs over
the full candidate index references only existing variables. -/
theorem iterate_inputs_bound {lambdas : List Lam} {program : Program}
    {program_len : Nat} {f : Func} {args : List Arg}
    (h : args ∈ iterate_inputs f (fullT2V lambdas program program_len)) :
    stVarsBelow (Statement.mk f args)
      (program.input_types.length + program.statements.length) := by
  intro i hi
  rw [iterate_inputs] at h
  rcases cartProd_mem _ args h (Arg.var i) hi with ⟨l, hl, hal⟩
  rcases List.mem_map.1 hl with ⟨t, _, rfl⟩
  rcases fullT2V_mem hal with ⟨lm, hlm⟩ | ⟨j, hj, hjlt⟩
  · exact absurd hlm (by intro hc; exact Arg.noConfusion hc)
  · have : i = j := by
      injection hj
    rw [var_types_length] at hjlt
    omega

/-- The empty program is well formed. -/
theorem wfProg_empty (input_types : List Ty) :
    wfProg (Program.mk input_types []) := by
  intro k hk
  exact absurd hk (by simp)

/-- Appending a statement that references only existing variables keeps a
program well formed. -/
theorem wfProg_append {p : Program} {s : Statement} (hwf : wfProg p)
    (hs : stVarsBelow s (p.input_types.length + p.statements.length)) :
    wfProg (Program.mk p.input_types (p.statements ++ [s])) := by
  intro k hk
  have hk' : k < p.statements.length + 1 := by simpa using hk
  show stVarsBelow ((p.statements ++ [s]).getD k defaultStmt)
    (p.input_types.length + k)
  by_cases hlt : k < p.statements.length
  · have hgd : (p.statements ++ [s]).getD k defaultStmt =
        p.statements.getD k defaultStmt := by
      rw [List.getD_eq_getElem _ _ (by simp; omega),
        List.getD_eq_getElem _ _ hlt, List.getElem_append_left hlt]
    rw [hgd]
    exact hwf k hlt
  · have hke : k = p.statements.length := by omega
    subst hke
    have hgd : (p.statements ++ [s]).getD p.statements.length defaultStmt =
        s := by
      rw [List.getD_eq_getElem _ _ (by simp)]
      rw [List.getElem_append_right (Nat.le_refl _)]
      simp
    rw [hgd]
    exact hs

/-- Invariant of the argument loop: every program in the resulting result
set was already there, or has no unused indices and is well formed;
recursion behaves likewise and every candidate tuple builds a statement
referencing only existing variables. -/
theorem tryArgs_inv (recurse : Program → GenState → Bool × GenState)
    (free : List Nat) (program : Program) (function : Func)
    (hrec : ∀ q s, wfProg q → ∀ p ∈ (recurse q s).2.programs,
      p ∈ s.programs ∨ (get_unused_indices p = [] ∧ wfProg p))
    (hwf : wfProg program) :
    ∀ (argsL : List (List Arg)) (st : GenState),
      (∀ args ∈ argsL, stVarsBelow (Statement.mk function args)
        (program.input_types.length + program.statements.length)) →
      ∀ p ∈ (tryArgs recurse free program function argsL st).2.programs,
        p ∈ st.programs ∨ (get_unused_indices p = [] ∧ wfProg p) := by
  intro argsL
  induction argsL with
  | nil =>
    intro st _ p hp
    rw [tryArgs] at hp
    exact Or.inl hp
  | cons args rest ih =>
    intro st hargs p hp
    have hargs' : ∀ a ∈ rest, stVarsBelow (Statement.mk function a)
        (program.input_types.length + program.statements.length) :=
      fun a ha => hargs a (List.mem_cons_of_mem args ha)
    have hwfq : wfProg (Program.mk program.input_types
        (program.statements ++ [Statement.mk function args])) :=
      wfProg_append hwf (hargs args (List.mem_cons_self args rest))
    rw [tryArgs] at hp
    split at hp
    · exact ih st hargs' p hp
    · split at hp
      · exact ih st hargs' p hp
      · split at hp
        · rename_i st2 heq
          have hp' : p ∈ (recurse (Program.mk program.input_types
              (program.statements ++ [Statement.mk function args]))
              st).2.programs := by
            rw [heq]
            exact hp
          exact hrec _ st hwfq p hp'
        · rename_i st2 heq
          rcases ih st2 hargs' p hp with h | h
          · have hp' : p ∈ (recurse (Program.mk program.input_types
                (program.statements ++ [Statement.mk function args]))
                st).2.programs := by
              rw [heq]
              exact h
            exact hrec _ st hwfq p hp'
          · exact Or.inr h

/-- Invariant of the function loop, under the same hypotheses. -/
theorem tryFuncs_inv (recurse : Program → GenState → Bool × GenState)
    (t2v : Ty → List Arg) (free : List Nat) (program : Program)
    (hrec : ∀ q s, wfProg q → ∀ p ∈ (recurse q s).2.programs,
      p ∈ s.programs ∨ (get_unused_indices p = [] ∧ wfProg p))
    (hwf : wfProg program)
    (ht2v : ∀ (f : Func) (args : List Arg), args ∈ iterate_inputs f t2v →
      stVarsBelow (Statement.mk f args)
        (program.input_types.length + program.statements.length)) :
    ∀ (fs : List Func) (st : GenState),
      ∀ p ∈ (tryFuncs recurse t2v free program fs st).2.programs,
        p ∈ st.programs ∨ (get_unused_indices p = [] ∧ wfProg p) := by
  intro fs
  induction fs with
  | nil =>
    intro st p hp
    rw [tryFuncs] at hp
    exact Or.inl hp
  | cons f fs ih =>
    intro st p hp
    rw [tryFuncs] at hp
    split at hp
    · rename_i st2 heq
      have hp' : p ∈ (tryArgs recurse free program f
          (iterate_inputs f t2v) st).2.programs := by
        rw [heq]
        exact hp
      exact tryArgs_inv recurse free program f hrec hwf _ st
        (fun a ha => ht2v f a ha) p hp'
    · rename_i st2 heq
      rcases ih st2 p hp with h | h
      · have hp' : p ∈ (tryArgs recurse free program f
            (iterate_inputs f t2v) st).2.programs := by
          rw [heq]
          exact h
        exact tryArgs_inv recurse free program f hrec hwf _ st
          (fun a ha => ht2v f a ha) p hp'
      · exact Or.inr h

/-- Invariant of the helper: every program in the resulting result set was
already there or was accepted at target depth with no unused indices, and
is well formed. -/
theorem helper_inv (P : GenParams) :
    ∀ (fuel : Nat) (functions : List Func) (program : Program)
      (st : GenState),
      wfProg program →
      ∀ p ∈ (helper P fuel functions program st).2.programs,
        p ∈ st.programs ∨ (get_unused_indices p = [] ∧ wfProg p) := by
  intro fuel
  induction fuel with
  | zero =>
    intro functions program st _ p hp
    rw [helper] at hp
    exact Or.inl hp
  | succ fuel ih =>
    intro functions program st hwf p hp
    simp only [helper] at hp
    split at hp
    · exact Or.inl hp
    · split at hp
      · split at hp
        · exact Or.inl hp
        · rename_i hcond
          push_neg at hcond
          simp only at hp
          rcases List.mem_cons.1 hp with h | h
          · exact Or.inr ⟨h ▸ hcond.1, h ▸ hwf⟩
          · exact Or.inl h
      · have h2 := tryFuncs_inv
          (fun q s => helper P fuel (P.ord st.rnd functions) q s)
          (fullT2V P.lambdas program P.program_len)
          (get_free_indices program P.program_len) program
          (fun q s hq => ih (P.ord st.rnd functions) q s hq) hwf
          (fun f args ha => iterate_inputs_bound ha)
          (P.ord st.rnd functions)
          (GenState.mk st.counter st.programs (st.rnd + 1)) p hp
        simpa using h2

/-- Invariant of the restart loop: a returned state holds only accepted
programs, given the starting state does. -/
theorem workerLoop_inv (P : GenParams) (functions : List Func)
    (input_types : List Ty) :
    ∀ (n : Nat) (st st' : GenState),
      workerLoop P functions input_types n st = some st' →
      (∀ p ∈ st.programs, get_unused_indices p = [] ∧ wfProg p) →
      ∀ p ∈ st'.programs, get_unused_indices p = [] ∧ wfProg p := by
  intro n
  induction n with
  | zero =>
    intro st st' h _
    rw [workerLoop] at h
    exact Option.noConfusion h
  | succ n ih =>
    intro st st' h hst
    rw [workerLoop] at h
    by_cases hq : P.num_programs ≤ st.counter
    · rw [if_pos hq] at h
      injection h with h'
      subst h'
      exact hst
    · rw [if_neg hq] at h
      refine ih _ st' h ?_
      intro p hp
      rcases helper_inv P (P.program_len + 1) functions
        (Program.mk input_types []) st (wfProg_empty input_types) p hp
        with h' | h'
      · exact hst p h'
      · exact h'

/-- A program with no unused indices that references only already-defined
variables is fully used: every index below the final one is referenced as
an argument by a later statement. -/
theorem fullyUsed_of_accepted (p : Program)
    (hu : get_unused_indices p = []) (hwf : wfProg p) : fullyUsed p := by
  intro i hi
  have hused : i ∈ get_used_indices p := by
    rw [get_unused_indices] at hu
    have h1 := List.filter_eq_nil_iff.1 hu i hi
    simpa using h1
  rw [get_used_indices, List.mem_flatMap] at hused
  rcases hused with ⟨s, hs, hmem⟩
  rcases List.mem_filterMap.1 hmem with ⟨a, ha, hfa⟩
  have hai : a = Arg.var i := by
    cases a with
    | var j =>
      have : j = i := by
        injection hfa
      rw [this]
    | lam l => exact Option.noConfusion hfa
  rcases List.getElem_of_mem hs with ⟨k, hk, hks⟩
  refine ⟨k, List.mem_range.2 hk, ?_, ?_⟩
  · rw [List.getD_eq_getElem _ _ hk, hks]
    exact hai ▸ ha
  · refine hwf k hk i ?_
    rw [List.getD_eq_getElem _ _ hk, hks]
    exact hai ▸ ha

/-- Claim C1: every program in the result set returned by the enumeration
worker has an empty set of unused indices: every variable index, input slot
or intermediate statement result, is referenced as an argument by some
later statement of the program. -/
theorem C1_accepted_programs_fully_used (P : GenParams)
    (functions : List Func) (input_types : List Ty)
    (restarts counter0 rnd0 : Nat) (st' : GenState)
    (h : gen_program_worker P functions input_types restarts counter0 rnd0 =
      some st')
    (p : Program) (hp : p ∈ st'.programs) :
    get_unused_indices p = [] ∧ fullyUsed p := by
  rw [gen_program_worker] at h
  have hgood := workerLoop_inv P functions input_types restarts
    (GenState.mk counter0 [] rnd0) st' h
    (fun q hq => absurd hq (List.not_mem_nil q)) p hp
  exact ⟨hgood.1, fullyUsed_of_accepted p hgood.1 hgood.2⟩

/-- Witness for C1: the concrete attainable run returns the single sort
program, which has no unused index and is fully used. -/
theorem C1_accepted_programs_fully_used_witness :
    gen_program_worker instParamsOne sortOnly [Ty.LIST] 2 0 0 =
      some (GenState.mk 1 [samplePLen1] 2) ∧
    (get_unused_indices samplePLen1 = [] ∧ fullyUsed samplePLen1) :=
  ⟨by decide,
    C1_accepted_programs_fully_used instParamsOne sortOnly [Ty.LIST] 2 0 0
      (GenState.mk 1 [samplePLen1] 2) (by decide) samplePLen1 (by decide)⟩

/-- One reorder pass starting mid-list: if the visited prefix splits into
free elements followed by non-free elements, the final list splits the same
way.  Every free element visited is moved to the front, so the invariant is
maintained along the pass. -/
theorem passAux_split (fr : Arg → Bool) :
    ∀ (fuel : Nat) (R A : List Arg), R.length ≤ fuel → (A ++ R).Nodup →
      (∃ F N, A = F ++ N ∧ (∀ a ∈ F, fr a = true) ∧
        (∀ a ∈ N, fr a = false)) →
      ∃ F' N', passAux fr fuel (A ++ R) A.length = F' ++ N' ∧
        (∀ a ∈ F', fr a = true) ∧ (∀ a ∈ N', fr a = false) := by
  intro fuel
  induction fuel with
  | zero =>
    intro R A hlen hnd hsplit
    have hR : R = [] := List.length_eq_zero.1 (Nat.le_zero.1 hlen)
    subst hR
    rw [passAux]
    rcases hsplit with ⟨F, N, hA, hF, hN⟩
    exact ⟨F, N, by rw [List.append_nil, hA], hF, hN⟩
  | succ fuel ih =>
    intro R A hlen hnd hsplit
    cases R with
    | nil =>
      rw [passAux, dif_neg (by simp)]
      rcases hsplit with ⟨F, N, hA, hF, hN⟩
      exact ⟨F, N, by rw [List.append_nil, hA], hF, hN⟩
    | cons x R' =>
      have hidx : A.length < (A ++ x :: R').length := by
        rw [List.length_append, List.length_cons]
        omega
      rw [passAux, dif_pos hidx]
      have hget : (A ++ x :: R').get ⟨A.length, hidx⟩ = x := by
        rw [List.get_eq_getElem, List.getElem_append_right (Nat.le_refl _)]
        simp
      rw [hget]
      have hlen' : R'.length ≤ fuel := by
        have := hlen
        simp only [List.length_cons] at this
        omega
      have hxA : x ∉ A := by
        have hd := List.disjoint_of_nodup_append hnd
        intro hx
        exact hd hx (List.mem_cons_self x R')
      by_cases hx : fr x = true
      · rw [if_pos hx]
        have herase : (A ++ x :: R').erase x = A ++ R' := by
          rw [List.erase_append_right _ hxA, List.erase_cons_head]
        rw [herase]
        have hnd' : ((x :: A) ++ R').Nodup := by
          rw [List.cons_append]
          exact List.perm_middle.nodup hnd
        rcases hsplit with ⟨F, N, hA, hF, hN⟩
        have hsplit' : ∃ F0 N0, x :: A = F0 ++ N0 ∧
            (∀ a ∈ F0, fr a = true) ∧ (∀ a ∈ N0, fr a = false) := by
          refine ⟨x :: F, N, by rw [hA, List.cons_append], ?_, hN⟩
          intro a ha
          rcases List.mem_cons.1 ha with h | h
          · exact h ▸ hx
          · exact hF a h
        rcases ih R' (x :: A) hlen' hnd' hsplit' with ⟨F', N', hep, hF', hN'⟩
        exact ⟨F', N', hep, hF', hN'⟩
      · rw [if_neg hx]
        have hnd' : ((A ++ [x]) ++ R').Nodup := by
          rw [List.append_assoc, List.singleton_append]
          exact hnd
        rcases hsplit with ⟨F, N, hA, hF, hN⟩
        have hsplit' : ∃ F0 N0, A ++ [x] = F0 ++ N0 ∧
            (∀ a ∈ F0, fr a = true) ∧ (∀ a ∈ N0, fr a = false) := by
          refine ⟨F, N ++ [x], by rw [hA, List.append_assoc], hF, ?_⟩
          intro a ha
          rcases List.mem_append.1 ha with h | h
          · exact hN a h
          · rw [List.mem_singleton.1 h]
            exact Bool.eq_false_iff.2 hx
        rcases ih R' (A ++ [x]) hlen' hnd' hsplit' with ⟨F', N', hep, hF', hN'⟩
        refine ⟨F', N', ?_, hF', hN'⟩
        rw [List.append_assoc, List.singleton_append] at hep
        rw [List.length_append, List.length_singleton] at hep
        exact hep

/-- After one full reorder pass over a duplicate-free list, the free
elements form a prefix and the non-free elements the remaining suffix. -/
theorem onePass_split (fr : Arg → Bool) (l : List Arg) (hnd : l.Nodup) :
    ∃ F N, onePass fr l = F ++ N ∧ (∀ a ∈ F, fr a = true) ∧
      (∀ a ∈ N, fr a = false) := by
  have h := passAux_split fr l.length l [] (Nat.le_refl _)
    (by simpa using hnd)
    ⟨[], [], rfl, fun a ha => absurd ha (List.not_mem_nil a),
      fun a ha => absurd ha (List.not_mem_nil a)⟩
  simpa [onePass] using h

/-- The enumerated list is strictly increasing in its position field. -/
theorem enum_pairwise_fst {α : Type} (l : List α) :
    List.Pairwise (fun a b => a.1 < b.1) l.enum := by
  rw [List.pairwise_iff_getElem]
  intro i j hi hj hij
  rw [List.getElem_enum, List.getElem_enum]
  simpa using hij

/-- The build fold keeps every candidate list duplicate free as long as the
inserted indices are strictly increasing and above the existing entries. -/
theorem t2vFold_nodup :
    ∀ (pairs : List (Nat × Ty)) (m : Ty → List Arg),
      List.Pairwise (fun a b => a.1 < b.1) pairs →
      (∀ t, (m t).Nodup) →
      (∀ t i, Arg.var i ∈ m t → ∀ q ∈ pairs, i < q.1) →
      ∀ t, ((pairs.foldl
        (fun m q => fun u => if u = q.2 then Arg.var q.1 :: m q.2 else m u)
        m) t).Nodup := by
  intro pairs
  induction pairs with
  | nil => intro m _ hm _ t; exact hm t
  | cons q rest ih =>
    intro m hpw hm hbound t
    rw [List.foldl_cons]
    rcases List.pairwise_cons.1 hpw with ⟨hq, hpw'⟩
    refine ih _ hpw' ?_ ?_ t
    · intro t'
      show (if t' = q.2 then Arg.var q.1 :: m q.2 else m t').Nodup
      by_cases ht : t' = q.2
      · rw [if_pos ht]
        rw [List.nodup_cons]
        refine ⟨?_, hm q.2⟩
        intro hmem
        exact absurd (hbound q.2 q.1 hmem q (List.mem_cons_self q rest))
          (Nat.lt_irrefl q.1)
      · rw [if_neg ht]
        exact hm t'
    · intro t' i hmem q' hq'
      have hmem' : Arg.var i ∈
          (if t' = q.2 then Arg.var q.1 :: m q.2 else m t') := hmem
      by_cases ht : t' = q.2
      · rw [if_pos ht] at hmem'
        rcases List.mem_cons.1 hmem' with h | h
        · have : i = q.1 := by injection h
          exact this ▸ hq q' hq'
        · exact hbound q.2 i h q' (List.mem_cons_of_mem q hq')
      · rw [if_neg ht] at hmem'
        exact hbound t' i hmem' q' (List.mem_cons_of_mem q hq')

/-- Each built candidate list is duplicate free. -/
theorem buildT2V_nodup (vt : List Ty) (t : Ty) : (buildT2V vt t).Nodup := by
  refine t2vFold_nodup vt.enum (fun _ => []) (enum_pairwise_fst vt)
    (fun _ => List.nodup_nil) ?_ t
  intro t' i hmem
  exact absurd hmem (List.not_mem_nil _)

/-- The build fold leaves the list of a type no pair mentions unchanged. -/
theorem t2vFold_untouched :
    ∀ (pairs : List (Nat × Ty)) (m : Ty → List Arg) (t : Ty),
      (∀ q ∈ pairs, q.2 ≠ t) →
      (pairs.foldl
        (fun m q => fun u => if u = q.2 then Arg.var q.1 :: m q.2 else m u)
        m) t = m t := by
  intro pairs
  induction pairs with
  | nil => intro m t _; rfl
  | cons q rest ih =>
    intro m t hq
    rw [List.foldl_cons]
    rw [ih _ t (fun q' hq' => hq q' (List.mem_cons_of_mem q hq'))]
    show (if t = q.2 then Arg.var q.1 :: m q.2 else m t) = m t
    rw [if_neg (fun h : t = q.2 =>
      hq q (List.mem_cons_self q rest) h.symm)]

/-- A type with no variable of that type has an empty built candidate
list. -/
theorem buildT2V_empty (vt : List Ty) (t : Ty) (ht : t ∉ vt) :
    buildT2V vt t = [] := by
  refine t2vFold_untouched vt.enum (fun _ => []) t ?_
  intro q hq hc
  exact ht (hc ▸ List.snd_mem_of_mem_enum hq)

/-- The reorder loop leaves the list of a type not present in var_types
unchanged. -/
theorem reorder_untouched (fr : Arg → Bool) :
    ∀ (vt : List Ty) (m : Ty → List Arg) (t : Ty), t ∉ vt →
      reorder fr vt m t = m t := by
  intro vt
  induction vt with
  | nil => intro m t _; rfl
  | cons t0 rest ih =>
    intro m t ht
    rw [reorder, List.foldl_cons]
    have ht' : t ∉ rest := fun h => ht (List.mem_cons_of_mem t0 h)
    have h1 := ih (fun u => if u = t0 then onePass fr (m t0) else m u) t ht'
    rw [reorder] at h1
    rw [h1]
    show (if t = t0 then onePass fr (m t0) else m t) = m t
    rw [if_neg (fun h : t = t0 =>
      ht (by rw [h]; exact List.mem_cons_self t0 rest))]

/-- After the whole reorder loop, for every type that occurs in var_types
the candidate list is a block of free elements followed by a block of
non-free elements. -/
theorem reorder_split (fr : Arg → Bool) :
    ∀ (vt : List Ty) (m : Ty → List Arg), (∀ u, (m u).Nodup) →
      ∀ t ∈ vt, ∃ F N, reorder fr vt m t = F ++ N ∧
        (∀ a ∈ F, fr a = true) ∧ (∀ a ∈ N, fr a = false) := by
  intro vt
  induction vt with
  | nil => intro m _ t ht; exact absurd ht (List.not_mem_nil t)
  | cons t0 rest ih =>
    intro m hnd t ht
    rw [reorder, List.foldl_cons]
    have hnd1 : ∀ u, ((fun u => if u = t0 then onePass fr (m t0) else m u)
        u).Nodup := by
      intro u
      show (if u = t0 then onePass fr (m t0) else m u).Nodup
      by_cases hu : u = t0
      · rw [if_pos hu]
        exact (passAux_perm fr _ _ _).symm.nodup (hnd t0)
      · rw [if_neg hu]
        exact hnd u
    by_cases htr : t ∈ rest
    · have h1 := ih _ hnd1 t htr
      rw [reorder] at h1
      exact h1
    · have hte : t = t0 := by
        rcases List.mem_cons.1 ht with h | h
        · exact h
        · exact absurd h htr
      subst hte
      have h2 := reorder_untouched fr rest
        (fun u => if u = t then onePass fr (m t) else m u) t htr
      rw [reorder] at h2
      rw [h2]
      show ∃ F N, (if t = t then onePass fr (m t) else m t) = F ++ N ∧
        (∀ a ∈ F, fr a = true) ∧ ∀ a ∈ N, fr a = false
      rw [if_pos rfl]
      exact onePass_split fr (m t) (hnd t)

/-- The full candidate index of every type is a block of free candidates
followed by a block of non-free candidates (non-free variables, then the
appended lambdas, which are never free). -/
theorem fullT2V_split (lambdas : List Lam) (program : Program)
    (program_len : Nat) (t : Ty) :
    ∃ F R, fullT2V lambdas program program_len t = F ++ R ∧
      (∀ a ∈ F, argFree (get_free_indices program program_len) a = true) ∧
      (∀ a ∈ R, argFree (get_free_indices program program_len) a = false) := by
  rw [fullT2V]
  rcases addLambdas_decomp lambdas
    (reorder (argFree (get_free_indices program program_len))
      program.var_types (buildT2V program.var_types)) t with ⟨L, hL, hlam⟩
  have hlamfree : ∀ x ∈ L,
      argFree (get_free_indices program program_len) x = false := by
    intro x hx
    rcases hlam x hx with ⟨l, rfl⟩
    rfl
  by_cases ht : t ∈ program.var_types
  · rcases reorder_split (argFree (get_free_indices program program_len))
      program.var_types (buildT2V program.var_types)
      (fun u => buildT2V_nodup program.var_types u) t ht
      with ⟨F, N, hFN, hF, hN⟩
    refine ⟨F, N ++ L, ?_, hF, ?_⟩
    · rw [hL, hFN, List.append_assoc]
    · intro a ha
      rcases List.mem_append.1 ha with h | h
      · exact hN a h
      · exact hlamfree a h
  · have h0 : buildT2V program.var_types t = [] :=
      buildT2V_empty program.var_types t ht
    have h1 : reorder (argFree (get_free_indices program program_len))
        program.var_types (buildT2V program.var_types) t = [] := by
      rw [reorder_untouched _ _ _ _ ht, h0]
    refine ⟨[], L, ?_, fun a ha => absurd ha (List.not_mem_nil a), hlamfree⟩
    rw [hL, h1, List.nil_append]

/-- Claim C4: in the type-to-candidates index built and reordered at a
recursion step of the enumerator, every free candidate occupies an earlier
position than every non-free candidate of the same type; in particular
every free variable index appears earlier in its type's list than every
non-free variable index of that type. -/
theorem C4_free_variables_first (lambdas : List Lam) (program : Program)
    (program_len : Nat) (t : Ty) (pi pj : Nat)
    (hi : pi < (fullT2V lambdas program program_len t).length)
    (hj : pj < (fullT2V lambdas program program_len t).length)
    (hfree : argFree (get_free_indices program program_len)
      ((fullT2V lambdas program program_len t).get ⟨pi, hi⟩) = true)
    (hnonfree : argFree (get_free_indices program program_len)
      ((fullT2V lambdas program program_len t).get ⟨pj, hj⟩) = false) :
    pi < pj := by
  rcases fullT2V_split lambdas program program_len t with ⟨F, R, hFR, hF, hR⟩
  rw [List.get_eq_getElem] at hfree hnonfree
  have hi2 : pi < (F ++ R).length := by rw [← hFR]; exact hi
  have hj2 : pj < (F ++ R).length := by rw [← hFR]; exact hj
  rw [List.getElem_of_eq hFR hi] at hfree
  rw [List.getElem_of_eq hFR hj] at hnonfree
  have h1 : pi < F.length := by
    by_contra hge
    push_neg at hge
    have hmem : (F ++ R)[pi] ∈ R := by
      rw [List.getElem_append_right hge]
      exact List.getElem_mem _
    rw [hR _ hmem] at hfree
    exact Bool.noConfusion hfree
  have h2 : F.length ≤ pj := by
    by_contra hlt
    push_neg at hlt
    have hmem : (F ++ R)[pj] ∈ F := by
      rw [List.getElem_append_left hlt]
      exact List.getElem_mem _
    rw [hF _ hmem] at hnonfree
    exact Bool.noConfusion hnonfree
  omega

/-- Witness for C4: for a two-list-input program of target length two with
one statement consuming the first input, the reordered LIST candidates are
the free variables one and two followed by the consumed variable zero, so
the free position zero precedes the non-free position two. -/
theorem C4_free_variables_first_witness :
    fullT2V [] (Program.mk [Ty.LIST, Ty.LIST] [sampleStmt]) 2 Ty.LIST =
      [Arg.var 1, Arg.var 2, Arg.var 0] ∧ (0 : Nat) < 2 :=
  ⟨by decide,
    C4_free_variables_first [] (Program.mk [Ty.LIST, Ty.LIST] [sampleStmt])
      2 Ty.LIST 0 2 (by decide) (by decide) (by decide) (by decide)⟩

/-- The restart loop hands back a state only when the shared counter has
reached the quota. -/
theorem workerLoop_some_quota (P : GenParams) (functions : List Func)
    (input_types : List Ty) :
    ∀ (n : Nat) (st st' : GenState),
      workerLoop P functions input_types n st = some st' →
      P.num_programs ≤ st'.counter := by
  intro n
  induction n with
  | zero =>
    intro st st' h
    rw [workerLoop] at h
    exact Option.noConfusion h
  | succ n ih =>
    intro st st' h
    rw [workerLoop] at h
    by_cases hq : P.num_programs ≤ st.counter
    · rw [if_pos hq] at h
      injection h with h'
      exact h' ▸ hq
    · rw [if_neg hq] at h
      exact ih _ st' h

/-- In the concrete unattainable-quota run, the state after the single
distinct program has been found is a fixpoint of the helper up to the
randomness cursor. -/
theorem helper_inst_stuck (r : Nat) :
    helper instParams (instParams.program_len + 1) sortOnly
      (Program.mk [Ty.LIST] []) (GenState.mk 1 [samplePLen1] r) =
      (false, GenState.mk 1 [samplePLen1] (r + 2)) := rfl

/-- In the concrete unattainable-quota run, the restart loop never returns
from the stuck state, for any number of iterations. -/
theorem workerLoop_inst_stuck :
    ∀ (n r : Nat),
      workerLoop instParams sortOnly [Ty.LIST] n
        (GenState.mk 1 [samplePLen1] r) = none := by
  intro n
  induction n with
  | zero => intro r; rfl
  | succ n ih =>
    intro r
    rw [workerLoop]
    rw [if_neg (show ¬ instParams.num_programs ≤
      (GenState.mk 1 [samplePLen1] r).counter from
      (by decide : ¬ (2 : Nat) ≤ 1))]
    rw [helper_inst_stuck r]
    exact ih (r + 2)

/-- In the concrete unattainable-quota run, the restart loop never returns
from the initial empty state either. -/
theorem workerLoop_inst_none :
    ∀ n : Nat,
      workerLoop instParams sortOnly [Ty.LIST] n (GenState.mk 0 [] 0) =
        none := by
  intro n
  cases n with
  | zero => rfl
  | succ n =>
    rw [workerLoop]
    rw [if_neg (by decide : ¬ instParams.num_programs ≤
      (GenState.mk 0 [] 0).counter)]
    have h1 : helper instParams (instParams.program_len + 1) sortOnly
        (Program.mk [Ty.LIST] []) (GenState.mk 0 [] 0) =
        (true, GenState.mk 1 [samplePLen1] 2) := rfl
    rw [h1]
    exact workerLoop_inst_stuck n 2

/-- Claim C5, counterexample: a concrete signature (one list input), a
one-function catalog and quota two: only one distinct length-one program
exists, and the worker loop never returns for any number of restart
iterations, contradicting the claim that the worker terminates with the
distinct programs found when the attainable count is below the quota. -/
theorem C5_short_quota_spins_forever :
    ¬ ∃ (n : Nat) (st' : GenState),
      gen_program_worker instParams sortOnly [Ty.LIST] n 0 0 = some st' := by
  rintro ⟨n, st', h⟩
  rw [gen_program_worker, workerLoop_inst_none n] at h
  exact Option.noConfusion h

/-- Claim C5, amended: the restart loop of gen_program_worker returns only
once the shared progress counter has reached the quota; when the attainable
distinct-program count for the signature is smaller than the quota the loop
never returns (so callers pre-bound the quota for very short lengths). -/
theorem C5_loop_exits_only_at_quota :
    (∀ (P : GenParams) (functions : List Func) (input_types : List Ty)
      (n : Nat) (st st' : GenState),
      workerLoop P functions input_types n st = some st' →
      P.num_programs ≤ st'.counter) ∧
    (∀ n : Nat,
      gen_program_worker instParams sortOnly [Ty.LIST] n 0 0 = none) := by
  constructor
  · exact fun P functions input_types n st st' h =>
      workerLoop_some_quota P functions input_types n st st' h
  · intro n
    rw [gen_program_worker]
    exact workerLoop_inst_none n

/-- Witness for C5: with the attainable quota one, the loop terminates at
a state whose counter meets the quota, and with quota two the concrete run
at ten iterations is still spinning. -/
theorem C5_loop_exits_only_at_quota_witness :
    instParamsOne.num_programs ≤ (GenState.mk 1 [samplePLen1] 2).counter ∧
    gen_program_worker instParams sortOnly [Ty.LIST] 10 0 0 = none :=
  ⟨C5_loop_exits_only_at_quota.1 instParamsOne sortOnly [Ty.LIST] 2
      (GenState.mk 0 [] 0) (GenState.mk 1 [samplePLen1] 2) (by decide),
    C5_loop_exits_only_at_quota.2 10⟩

/-- If some element of a list is sent to none, mapM over Option is none. -/
theorem mapM_isNone_of_mem {α β : Type} (f : α → Option β) :
    ∀ (l : List α) (x : α), x ∈ l → f x = none → l.mapM f = none := by
  intro l
  induction l with
  | nil => intro x hx; simp at hx
  | cons a rest ih =>
    intro x hx hfx
    rw [List.mapM_cons]
    rcases List.mem_cons.1 hx with h | h
    · subst h
      rw [hfx]
      rfl
    · cases hfa : f a with
      | none => rfl
      | some b =>
        rw [ih x h hfx]
        rfl

/-- A successful mapM over Option succeeded on every element. -/
theorem mapM_some_of_mem {α β : Type} (f : α → Option β) (l : List α)
    (ys : List β) (hml : l.mapM f = some ys) (x : α) (hx : x ∈ l) :
    ∃ y, f x = some y := by
  cases hfx : f x with
  | none =>
    rw [mapM_isNone_of_mem f l x hx hfx] at hml
    exact Option.noConfusion hml
  | some y => exact ⟨y, rfl⟩

/-- A successful mapM over Option sends each element's decoded value into
the result list. -/
theorem mapM_mem_of_mem {α β : Type} (f : α → Option β) :
    ∀ (l : List α) (ys : List β), l.mapM f = some ys →
      ∀ (x : α) (y : β), x ∈ l → f x = some y → y ∈ ys := by
  intro l
  induction l with
  | nil =>
    intro ys _ x y hx _
    exact absurd hx (List.not_mem_nil x)
  | cons a rest ih =>
    intro ys hml x y hx hfx
    rw [List.mapM_cons] at hml
    cases hfa : f a with
    | none =>
      rw [hfa] at hml
      exact Option.noConfusion hml
    | some b =>
      rw [hfa] at hml
      replace hml : (rest.mapM f).bind (fun bs => some (b :: bs)) =
        some ys := hml
      cases hmr : rest.mapM f with
      | none =>
        rw [hmr] at hml
        exact Option.noConfusion hml
      | some bs =>
        rw [hmr] at hml
        replace hml : some (b :: bs) = some ys := hml
        injection hml with h
        subst h
        rcases List.mem_cons.1 hx with h | h
        · subst h
          rw [hfa] at hfx
          injection hfx with h'
          cases h'
          exact List.mem_cons_self _ _
        · exact List.mem_cons_of_mem b (ih bs hmr x y h hfx)

/-- The do-block of load_cache written as explicit Option binds. -/
theorem load_cache_as_binds {J E : Type} (jsonLoads : String → Option J)
    (parseProgram : J → Option Program) (exampleFromLine : J → Option E)
    (cacheLines : List String) :
    load_cache jsonLoads parseProgram exampleFromLine cacheLines =
      (cacheLines.mapM jsonLoads).bind (fun lines =>
        (lines.mapM (fun line => (parseProgram line).bind (fun program =>
          (exampleFromLine line).bind (fun p_examples =>
            some (program, p_examples))))).bind (fun entries =>
          some (entries.foldl (fun d q => dictInsert d q.1 q.2) []))) := rfl

/-- Claim C8: cache loading is all-or-nothing.  A persisted record is
malformed when the raw line decoder json.loads fails on it, or when its
decoded record fails Program.parse or Example.from_line.  If any record of
the cache is malformed, load_cache fails as a whole before returning a
corpus; and whenever load_cache returns a corpus, every line decoded
through all three stages, so no partially-loaded corpus is ever handed to
the generation loop. -/
theorem C8_cache_load_all_or_nothing {J E : Type}
    (jsonLoads : String → Option J) (parseProgram : J → Option Program)
    (exampleFromLine : J → Option E) (cacheLines : List String) :
    ((∃ x ∈ cacheLines, jsonLoads x = none ∨
        ∃ j, jsonLoads x = some j ∧
          (parseProgram j = none ∨ exampleFromLine j = none)) →
      load_cache jsonLoads parseProgram exampleFromLine cacheLines = none) ∧
    (∀ corpus,
      load_cache jsonLoads parseProgram exampleFromLine cacheLines =
        some corpus →
      ∀ x ∈ cacheLines, ∃ j, jsonLoads x = some j ∧
        (∃ p, parseProgram j = some p) ∧
        (∃ e, exampleFromLine j = some e)) := by
  have hrec : ∀ j : J, parseProgram j = none ∨ exampleFromLine j = none →
      (parseProgram j).bind (fun program =>
        (exampleFromLine j).bind (fun p_examples =>
          some (program, p_examples))) = none := by
    intro j hj
    rcases hj with h | h
    · rw [h]
      rfl
    · cases hp : parseProgram j with
      | none => rfl
      | some p =>
        show (exampleFromLine j).bind
          (fun p_examples => some (p, p_examples)) = none
        rw [h]
        rfl
  constructor
  · rintro ⟨x, hx, hfail⟩
    rcases hfail with hnone | ⟨j, hj, hbad⟩
    · rw [load_cache_as_binds,
        mapM_isNone_of_mem jsonLoads cacheLines x hx hnone]
      rfl
    · rw [load_cache_as_binds]
      cases hml : cacheLines.mapM jsonLoads with
      | none => rfl
      | some lines =>
        have hjmem : j ∈ lines :=
          mapM_mem_of_mem jsonLoads cacheLines lines hml x j hx hj
        show (lines.mapM (fun line => (parseProgram line).bind
            (fun program => (exampleFromLine line).bind (fun p_examples =>
              some (program, p_examples))))).bind (fun entries =>
            some (entries.foldl (fun d q => dictInsert d q.1 q.2) [])) = none
        rw [mapM_isNone_of_mem _ lines j hjmem (hrec j hbad)]
        rfl
  · intro corpus hc x hx
    rw [load_cache_as_binds] at hc
    cases hml : cacheLines.mapM jsonLoads with
    | none =>
      rw [hml] at hc
      exact Option.noConfusion hc
    | some lines =>
      rw [hml] at hc
      replace hc : (lines.mapM (fun line => (parseProgram line).bind
          (fun program => (exampleFromLine line).bind (fun p_examples =>
            some (program, p_examples))))).bind (fun entries =>
          some (entries.foldl (fun d q => dictInsert d q.1 q.2) [])) =
          some corpus := hc
      rcases mapM_some_of_mem jsonLoads cacheLines lines hml x hx
        with ⟨j, hj⟩
      have hjmem : j ∈ lines :=
        mapM_mem_of_mem jsonLoads cacheLines lines hml x j hx hj
      refine ⟨j, hj, ?_, ?_⟩
      · cases hp : parseProgram j with
        | some p => exact ⟨p, rfl⟩
        | none =>
          rw [mapM_isNone_of_mem _ lines j hjmem (hrec j (Or.inl hp))] at hc
          exact Option.noConfusion hc
      · cases he : exampleFromLine j with
        | some e => exact ⟨e, rfl⟩
        | none =>
          rw [mapM_isNone_of_mem _ lines j hjmem (hrec j (Or.inr he))] at hc
          exact Option.noConfusion hc

/-- Witness for C8: a record that is valid JSON but fails the program
decoder makes the whole load fail. -/
theorem C8_cache_load_all_or_nothing_witness :
    load_cache (fun s => some s)
      (fun j => if j = "badprog" then none else some (Program.mk [] []))
      (fun _ => some (0 : Nat)) ["ok", "badprog"] = none :=
  (C8_cache_load_all_or_nothing (fun s => some s)
    (fun j => if j = "badprog" then none else some (Program.mk [] []))
    (fun _ => some (0 : Nat)) ["ok", "badprog"]).1
    ⟨"badprog", by decide,
      Or.inr ⟨"badprog", rfl, Or.inl (by decide)⟩⟩

/-- Claim C7: for lengths 1 and 2 the quota passed to enumeration equals
min of num_train plus num_test with 47 and 2883 respectively, and for every
other length it is exactly num_train plus num_test. -/
theorem C7_quota_caps (num_train num_test program_len : Nat)
    (h1 : program_len ≠ 1) (h2 : program_len ≠ 2) :
    quotaFor num_train num_test 1 = min (num_train + num_test) 47 ∧
    quotaFor num_train num_test 1 ≤ 47 ∧
    quotaFor num_train num_test 2 = min (num_train + num_test) 2883 ∧
    quotaFor num_train num_test 2 ≤ 2883 ∧
    quotaFor num_train num_test program_len = num_train + num_test := by
  refine ⟨rfl, Nat.min_le_right _ _, rfl, Nat.min_le_right _ _, ?_⟩
  simp [quotaFor, KNOWN_TRAIN_SIZES, h1, h2]

/-- Witness for C7 at num_train 100, num_test 10, other length 3. -/
theorem C7_quota_caps_witness :
    quotaFor 100 10 1 = min (100 + 10) 47 ∧
    quotaFor 100 10 1 ≤ 47 ∧
    quotaFor 100 10 2 = min (100 + 10) 2883 ∧
    quotaFor 100 10 2 ≤ 2883 ∧
    quotaFor 100 10 3 = 100 + 10 :=
  C7_quota_caps 100 10 3 (by decide) (by decide)

/-- Claim C9: for every number of inputs of at least one, every signature
returned by get_input_type_combinations contains at least one LIST slot. -/
theorem C9_list_slot_always_present (num_inputs : Nat) (hn : 1 ≤ num_inputs)
    (sig : List Ty) (hs : sig ∈ get_input_type_combinations num_inputs) :
    Ty.LIST ∈ sig := by
  clear hn
  rcases List.mem_flatMap.1 hs with ⟨n, hn', hsig⟩
  rcases List.mem_map.1 hsig with ⟨num_list, hnl, rfl⟩
  have h1 : 1 ≤ num_list := by
    have := List.mem_range'.1 hnl
    omega
  apply List.mem_append.2
  left
  cases num_list with
  | zero => omega
  | succ m => simp [List.replicate_succ]

/-- Witness for C9 at two inputs and the first returned signature. -/
theorem C9_list_slot_always_present_witness :
    1 ≤ 2 ∧ [Ty.LIST] ∈ get_input_type_combinations 2 ∧
    Ty.LIST ∈ [Ty.LIST] :=
  ⟨by decide, by decide,
    C9_list_slot_always_present 2 (by decide) [Ty.LIST] (by decide)⟩

end Theorems

end GenPrograms
